import Mathlib

/-!
Verification of the Wafer compiler (jaked/wasmgroundup).

The development shallowly embeds the final stage of the compiler
(src/chapters/chapter06.ts, which re-exports and builds on chapters 01-05):

* the byte-sequence assembler of src/chapters/chapter01.ts
  (`flatten`, `u32`, `i32`, `vec`, `section`, `code`, `func`, the section
  builders and module framing);
* the scope/symbol machinery of src/chapters/chapter04.ts
  (`Symbol`, `resolveSymbol`, `locals`, `localidx`);
* the whole-module symbol-table builder and module assembly of
  src/chapters/chapter05.ts (`buildSymbolTable`, `defineFunctionDecls`,
  `buildModule`, `compile`);
* the code generator of src/chapters/chapter06.ts (`defineToWasm` with
  if/while/comparison/logical support).

The parser (ohm-js) is external: the embedding starts from the parse tree,
modelled as an inductive AST that mirrors the chapter06 grammar.  JavaScript
`Map`s are modelled as insertion-ordered association lists with `Map.set`
replace-in-place semantics; thrown `Error`s are modelled with
`Except String`; and JavaScript numbers that flow into byte positions are
modelled as `Int` (the compiler can emit `-1` there).  Monadic sequencing in
each embedded function follows the JavaScript evaluation order of the source
so that which error wins is preserved.
-/

/-! ## Byte-sequence assembler (src/chapters/chapter01.ts) -/

/-- TS `type bytes = (number | bytes)[]`: one element of such an array is
either a number or a nested array.  `Bytes` below is the array type itself. -/
inductive Item where
  | num : Int → Item
  | arr : List Item → Item

/-- TS `bytes`: an arbitrarily nested structure of byte values. -/
abbrev Bytes := List Item

mutual
/-- Flattening of a single `(number | bytes)` element. -/
def flattenItem : Item → List Int
  | .num n => [n]
  | .arr items => flatten items

/-- TS `flatten(arr: bytes)`: `arr.flat(Infinity)`. -/
def flatten : Bytes → List Int
  | [] => []
  | i :: rest => flattenItem i ++ flatten rest
end

/-- UTF-8 encoding of one Unicode code point; models what
`new TextEncoder().encode` does per character in TS `stringToBytes`
(Lean `Char` excludes surrogates, as do JS strings that round-trip
through the encoder). -/
def utf8EncodeCodePoint (n : Nat) : List Nat :=
  if n < 0x80 then [n]
  else if n < 0x800 then [0xC0 + n / 64, 0x80 + n % 64]
  else if n < 0x10000 then [0xE0 + n / 4096, 0x80 + (n / 64) % 64, 0x80 + n % 64]
  else [0xF0 + n / 262144, 0x80 + (n / 4096) % 64, 0x80 + (n / 64) % 64, 0x80 + n % 64]

/-- TS `stringToBytes(s)`: the UTF-8 bytes of `s` as a plain number array. -/
def stringToBytes (s : String) : List Int :=
  (s.data.flatMap (fun c => utf8EncodeCodePoint c.toNat)).map Int.ofNat

/-- TS `int32ToBytes(v)`: little-endian bytes via `v & 0xff`, `(v >> 8) & 0xff`,
etc.; for the non-negative 32-bit values the repository passes (only `1`),
those bit operations are the divisions/remainders below. -/
def int32ToBytes (v : Nat) : List Int :=
  [Int.ofNat (v % 256), Int.ofNat (v / 256 % 256),
   Int.ofNat (v / 65536 % 256), Int.ofNat (v / 16777216 % 256)]

/-- TS `u32(v)`: the single byte `[v]` if `v <= 127`, otherwise
`throw new Error("Not Implemented")`.  Note the guard has no lower bound. -/
def u32 (v : Int) : Except String Bytes :=
  if v ≤ 127 then .ok [.num v] else .error "Not Implemented"

/-- TS `i32(v)`: the single byte `[v]` if `v <= 63`, otherwise an error. -/
def i32 (v : Int) : Except String Bytes :=
  if v ≤ 63 then .ok [.num v] else .error "Not Implemented"

/-- TS `vec(elements)`: `[u32(elements.length), ...elements]` (the count
prefix is a nested array element; the elements are spliced in place). -/
def vec (elements : Bytes) : Except String Bytes := do
  let c ← u32 (Int.ofNat elements.length)
  return .arr c :: elements

/-- TS `magic()`: `stringToBytes("\0asm")`. -/
def magic : Bytes := (stringToBytes "\x00asm").map Item.num

/-- TS `version()`: `int32ToBytes(1)`. -/
def version : Bytes := (int32ToBytes 1).map Item.num

/-- TS `section(id, contents)`: `[id, u32(flatten(contents).length), contents]`. -/
def section_ (id : Int) (contents : Bytes) : Except String Bytes := do
  let s ← u32 (Int.ofNat (flatten contents).length)
  return [.num id, .arr s, .arr contents]

def SECTION_ID_TYPE : Int := 1

def SECTION_ID_FUNCTION : Int := 3

def SECTION_ID_EXPORT : Int := 7

def SECTION_ID_CODE : Int := 10

def TYPE_FUNCTION : Int := 0x60

/-- TS `functype(paramTypes, resultTypes)`: `[TYPE_FUNCTION, vec(paramTypes), vec(resultTypes)]`. -/
def functype (paramTypes resultTypes : Bytes) : Except String Bytes := do
  let vp ← vec paramTypes
  let vr ← vec resultTypes
  return [.num TYPE_FUNCTION, .arr vp, .arr vr]

/-- TS `typesec(functypes)`: `section(SECTION_ID_TYPE, vec(functypes))`. -/
def typesec (functypes : Bytes) : Except String Bytes := do
  let v ← vec functypes
  section_ SECTION_ID_TYPE v

/-- TS `const typeidx = u32`. -/
def typeidx : Int → Except String Bytes := u32

/-- TS `funcsec(typeidxs)`: `section(SECTION_ID_FUNCTION, vec(typeidxs))`. -/
def funcsec (typeidxs : Bytes) : Except String Bytes := do
  let v ← vec typeidxs
  section_ SECTION_ID_FUNCTION v

/-- TS `code(func)`: `[u32(flatten(func).length), func]` — the size-prefixed
entry of the code table. -/
def code (fn : Bytes) : Except String Bytes := do
  let s ← u32 (Int.ofNat (flatten fn).length)
  return [.arr s, .arr fn]

/-- TS `func(locals, body)`: `[vec(locals), body]`. -/
def func (locals_ body : Bytes) : Except String Bytes := do
  let v ← vec locals_
  return [.arr v, .arr body]

/-- TS `codesec(codes)`: `section(SECTION_ID_CODE, vec(codes))`. -/
def codesec (codes : Bytes) : Except String Bytes := do
  let v ← vec codes
  section_ SECTION_ID_CODE v

/-- TS `name(s)`: `vec(stringToBytes(s))`. -/
def name (s : String) : Except String Bytes :=
  vec ((stringToBytes s).map Item.num)

/-- TS `export_(nm, exportdesc)`: `[name(nm), exportdesc]`. -/
def export_ (nm : String) (exportdescB : Bytes) : Except String Bytes := do
  let nb ← name nm
  return [.arr nb, .arr exportdescB]

/-- TS `exportsec(exports)`: `section(SECTION_ID_EXPORT, vec(exports))`. -/
def exportsec (exports : Bytes) : Except String Bytes := do
  let v ← vec exports
  section_ SECTION_ID_EXPORT v

/-- TS `const funcidx = u32`. -/
def funcidx : Int → Except String Bytes := u32

/-- TS `exportdesc.func(idx)`: `[0x00, funcidx(idx)]`. -/
def exportdesc.func (idx : Int) : Except String Bytes := do
  let fi ← funcidx idx
  return [.num 0x00, .arr fi]

/-- TS `module(sections)`: `[magic(), version(), sections]`. -/
def module (sections : Bytes) : Bytes :=
  [.arr magic, .arr version, .arr sections]

/-- `Uint8Array.from` conversion applied to the flattened module in
`buildModule`: each JS number is wrapped to an unsigned byte (ToUint8,
i.e. modulo 256; `-1` becomes `255`). -/
def uint8FromList (l : List Int) : List Nat :=
  l.map (fun v => (v.emod 256).toNat)

/-! ## Instruction opcodes (src/chapters/chapter06.ts instr.js) -/

def instr.i32.const : Int := 0x41

def instr.i32.eq : Int := 0x46

def instr.i32.ne : Int := 0x47

def instr.i32.lt_s : Int := 0x48

def instr.i32.gt_s : Int := 0x4a

def instr.i32.le_s : Int := 0x4c

def instr.i32.ge_s : Int := 0x4e

def instr.i32.add : Int := 0x6a

def instr.i32.sub : Int := 0x6b

def instr.i32.and : Int := 0x71

def instr.i32.or : Int := 0x72

/-- TS `instr.local.get` (`local` is a Lean keyword, hence the flat name). -/
def instr.localGet : Int := 0x20

/-- TS `instr.local.set`. -/
def instr.localSet : Int := 0x21

/-- TS `instr.local.tee`. -/
def instr.localTee : Int := 0x22

def instr.loop : Int := 0x03

def instr.call : Int := 0x10

def instr.drop : Int := 0x1a

/-- TS `instr.if` (`if` is a Lean keyword, hence the underscore). -/
def instr.if_ : Int := 0x04

/-- TS `instr.else`. -/
def instr.else_ : Int := 0x05

/-- TS `instr.end`. -/
def instr.end_ : Int := 0x0b

def instr.br : Int := 0x0c

/-- TS `valtype.i32` (src/chapters/chapter02.ts). -/
def valtype.i32 : Int := 0x7f

/-- TS `blocktype = { empty: 0x40, ...valtype }` (src/chapters/chapter06.ts). -/
def blocktype.empty : Int := 0x40

def blocktype.i32 : Int := valtype.i32

/-! ## Scopes and symbols (src/chapters/chapter04.ts, chapter05.ts) -/

/-- TS `type Symbol = {name, idx, what}` (called `SymbolInfo` here because
`Symbol` is taken in Lean); `what` is the literal `"param"` or `"local"`. -/
structure SymbolInfo where
  name : String
  idx : Nat
  what : String
deriving DecidableEq, Repr

/-- A function-level scope: the insertion-ordered `Map<string, Symbol>` of one
function.  (TS declares one recursive `Scope` type whose entries are either a
`Symbol` or a nested `Scope`; exactly two levels are ever used, and every
access casts to the level it expects, so the embedding splits the type into
`FScope` and `MScope`.) -/
abbrev FScope := List (String × SymbolInfo)

/-- The module-level scope: function name to that function's scope, in
insertion (= declaration) order. -/
abbrev MScope := List (String × FScope)

/-- JS `Map.prototype.set` on an insertion-ordered map: replace in place if
the key is present (keeping its position), otherwise append. -/
def mapSet {α : Type} (m : List (String × α)) (k : String) (v : α) :
    List (String × α) :=
  match m with
  | [] => [(k, v)]
  | (k', v') :: rest => if k' = k then (k, v) :: rest else (k', v') :: mapSet rest k v

/-- JS `Map.prototype.get` (first, i.e. only, binding of the key). -/
def mapGet {α : Type} (m : List (String × α)) (k : String) : Option α :=
  match m with
  | [] => none
  | (k', v') :: rest => if k' = k then some v' else mapGet rest k

/-- JS `Array.from(map.keys())`: the keys in insertion order. -/
def keys {α : Type} (m : List (String × α)) : List String := m.map Prod.fst

/-- TS `resolveSymbol(identNode, locals)` (src/chapters/chapter04.ts): return
the symbol for the identifier, or throw
`` Error: undeclared identifier '<name>' ``. -/
def resolveSymbol (identName : String) (locals_ : FScope) : Except String SymbolInfo :=
  match mapGet locals_ identName with
  | some info => .ok info
  | none => .error ("Error: undeclared identifier \x27" ++ identName ++ "\x27")

/-- TS `locals(n, type)` (src/chapters/chapter04.ts): `[u32(n), type]`, the
run-length local-declaration entry. -/
def locals (n : Int) (type : Int) : Except String Bytes := do
  let nb ← u32 n
  return [.arr nb, .num type]

/-- TS `const localidx = u32`. -/
def localidx : Int → Except String Bytes := u32

/-- TS `const labelidx = u32` (src/chapters/chapter06.ts; defined but the
while-lowering writes the literal `1` instead of calling it). -/
def labelidx : Int → Except String Bytes := u32

/-! ## The syntax tree (external parser output, chapter06 grammar)

The ohm-js parse tree is modelled as a mutual inductive family following the
chapter06 grammar.  Two byte-for-byte-neutral encodings: the `else` branch of
an `IfExpr` is `BlockExpr | IfExpr` in the grammar — a nested if-expression
else branch is encoded as a `Block` with no statements, which generates the
identical byte stream; likewise an `else if` statement branch is encoded as
an else branch whose statement list is the single nested `IfStatement`. -/

mutual
/-- Grammar `Expr` / `PrimaryExpr`. -/
inductive Expr where
  | num (n : Nat) : Expr
  | var (name : String) : Expr
  | call (name : String) (args : Args) : Expr
  | assign (name : String) (rhs : Expr) : Expr
  | binary (first : Expr) (rest : OpChain) : Expr
  | ifE (cond : Expr) (thn : Block) (els : Block) : Expr
/-- Grammar `Args`: the argument expressions of a call, in source order. -/
inductive Args where
  | nil : Args
  | cons (e : Expr) (rest : Args) : Args
/-- The `(binaryOp PrimaryExpr)*` tail of `Expr_binary`: (operator, operand)
pairs in source order, the operator as its source string. -/
inductive OpChain where
  | nil : OpChain
  | cons (op : String) (operand : Expr) (rest : OpChain) : OpChain
/-- Grammar `Statement`. -/
inductive Stmt where
  | letS (name : String) (init : Expr) : Stmt
  | exprS (e : Expr) : Stmt
  | ifS (cond : Expr) (thn : Stmts) (els : ElseB) : Stmt
  | whileS (cond : Expr) (body : Stmts) : Stmt
/-- The optional `else` branch of an `IfStatement`. -/
inductive ElseB where
  | noneE : ElseB
  | someE (stmts : Stmts) : ElseB
/-- A `BlockStatements` / statement list. -/
inductive Stmts where
  | nil : Stmts
  | cons (s : Stmt) (rest : Stmts) : Stmts
/-- Grammar `BlockExpr`: `"{" Statement* Expr "}"`. -/
inductive Block where
  | mk (stmts : Stmts) (result : Expr) : Block
end

/-- Grammar `FunctionDecl`: `func identifier "(" Params? ")" BlockExpr`. -/
structure FuncDecl where
  name : String
  params : List String
  body : Block

/-! ## Symbol-table builder (src/chapters/chapter05.ts `buildSymbolTable`)

The builder walks the tree with a `_default` handler that recurses into all
children in order; the `Params` and `LetStatement` handlers register symbols
with `idx = scope.size`, and — crucially — the `LetStatement` handler does
NOT recurse into the initializer expression.  The walk of a function body is
embedded as state-passing functions on the function's scope. -/

mutual
/-- Scope effect of walking an expression (all via `_default`, which just
recurses; only nested blocks inside an `IfExpr` can contribute). -/
def stExpr (sc : FScope) : Expr → FScope
  | .num _ => sc
  | .var _ => sc
  | .call _ args => stArgs sc args
  | .assign _ rhs => stExpr sc rhs
  | .binary first rest => stChain (stExpr sc first) rest
  | .ifE c t e => stBlock (stBlock (stExpr sc c) t) e
termination_by structural e => e
def stArgs (sc : FScope) : Args → FScope
  | .nil => sc
  | .cons e rest => stArgs (stExpr sc e) rest
termination_by structural a => a
def stChain (sc : FScope) : OpChain → FScope
  | .nil => sc
  | .cons _ operand rest => stChain (stExpr sc operand) rest
termination_by structural ch => ch
/-- Scope effect of walking a statement.  `LetStatement(_let, id, _eq, _expr, _)`
registers `{name, idx: scope.size, what: "local"}` and does not visit `_expr`. -/
def stStmt (sc : FScope) : Stmt → FScope
  | .letS n _ => mapSet sc n ⟨n, sc.length, "local"⟩
  | .exprS e => stExpr sc e
  | .ifS c t e => stElse (stStmts (stExpr sc c) t) e
  | .whileS c b => stStmts (stExpr sc c) b
termination_by structural s => s
def stElse (sc : FScope) : ElseB → FScope
  | .noneE => sc
  | .someE ss => stStmts sc ss
termination_by structural e => e
def stStmts (sc : FScope) : Stmts → FScope
  | .nil => sc
  | .cons s rest => stStmts (stStmt sc s) rest
termination_by structural ss => ss
def stBlock (sc : FScope) : Block → FScope
  | .mk stmts result => stExpr (stStmts sc stmts) result
termination_by structural b => b
end

/-- The `Params(ident, _, iterIdent)` handler: each parameter in order gets
`{name, idx: scope.size, what: "param"}` via `Map.set`. -/
def stParams (sc : FScope) : List String → FScope
  | [] => sc
  | n :: rest => stParams (mapSet sc n ⟨n, sc.length, "param"⟩) rest

/-- The function-level scope built for one `FunctionDecl`: parameters first,
then the body walk. -/
def fscopeOf (f : FuncDecl) : FScope :=
  stBlock (stParams [] f.params) f.body

/-- The module-scope accumulation over the declarations (the `FunctionDecl`
handler sets `name ↦ locals` in the enclosing scope and fills it). -/
def buildSTAux (ms : MScope) : List FuncDecl → MScope
  | [] => ms
  | f :: rest => buildSTAux (mapSet ms f.name (fscopeOf f)) rest

/-- TS `buildSymbolTable(grammar, matchResult)` (src/chapters/chapter05.ts):
the top-level scope, mapping each declared function name to its scope. -/
def buildSymbolTable (m : List FuncDecl) : MScope :=
  buildSTAux [] m

/-! ## Code generation (src/chapters/chapter06.ts `defineToWasm`)

`scopes` is a stack holding the module scope at the bottom; inside a function
body the function's own scope is on top, and only those two levels exist, so
the embedding passes them as `ms` and `fs`.  Each `do` block sequences its
effects in the JavaScript evaluation order of the corresponding handler. -/

/-- The `instructionByOp` record in the `binaryOp` handler. -/
def instructionByOp : List (String × Int) :=
  [("+", instr.i32.add), ("-", instr.i32.sub),
   ("==", instr.i32.eq), ("!=", instr.i32.ne),
   ("<", instr.i32.lt_s), ("<=", instr.i32.le_s),
   (">", instr.i32.gt_s), (">=", instr.i32.ge_s),
   ("and", instr.i32.and), ("or", instr.i32.or)]

/-- The `binaryOp(char)` handler: the single fixed opcode for the operator
token, or `` throw Error(`Unhandled binary op '<op>'`) ``.  Note it returns a
bare number, not an array. -/
def binaryOp (op : String) : Except String Int :=
  match mapGet instructionByOp op with
  | some b => .ok b
  | none => .error ("Unhandled binary op \x27" ++ op ++ "\x27")

mutual
/-- `toWasm` on expressions. -/
def toWasmExpr (ms : MScope) (fs : FScope) : Expr → Except String Bytes
  | .num n => do
    -- number(_digits): [instr.i32.const, ...i32(num)]
    let nb ← i32 (Int.ofNat n)
    return .num instr.i32.const :: nb
  | .var nm => do
    -- PrimaryExpr_var(ident): [instr.local.get, localidx(info.idx)]
    let info ← resolveSymbol nm fs
    let li ← localidx (Int.ofNat info.idx)
    return [.num instr.localGet, .arr li]
  | .call nm args => do
    -- CallExpr: idx = Array.from(scopes[0].keys()).indexOf(name); -1 if absent
    let funcNames := keys ms
    let idx : Int := match funcNames.findIdx? (· == nm) with
      | some i => Int.ofNat i
      | none => -1
    let ab ← toWasmArgsOpt ms fs args
    let fi ← funcidx idx
    return [.arr ab, .arr [.num instr.call, .arr fi]]
  | .assign nm rhs => do
    -- AssignmentExpr(ident, _, expr): resolve first, then rhs, then localidx
    let info ← resolveSymbol nm fs
    let rb ← toWasmExpr ms fs rhs
    let li ← localidx (Int.ofNat info.idx)
    return [.arr rb, .num instr.localTee, .arr li]
  | .binary first rest => do
    -- Expr_binary: result = [num.toWasm()]; push(operand.toWasm(), op.toWasm())
    let fb ← toWasmExpr ms fs first
    let items ← toWasmChain ms fs rest
    return .arr fb :: items
  | .ifE c t e => do
    -- IfExpr: [cond, [if, blocktype.i32], then, else, elseBlock, end]
    let cb ← toWasmExpr ms fs c
    let tb ← toWasmBlock ms fs t
    let eb ← toWasmBlock ms fs e
    return [.arr cb, .arr [.num instr.if_, .num blocktype.i32], .arr tb,
            .num instr.else_, .arr eb, .num instr.end_]
termination_by structural e => e
/-- `optArgs.children.map((c) => c.toWasm())`: empty when the optional `Args`
node is absent, otherwise the single `Args` node's result (the `Args`
handler's first step is inlined here so the recursion stays structural;
`toWasmArgsOpt_cons` below re-states it in terms of `toWasmArgs`). -/
def toWasmArgsOpt (ms : MScope) (fs : FScope) : Args → Except String Bytes
  | .nil => .ok []
  | .cons e rest => do
    let b ← toWasmExpr ms fs e
    let r ← toWasmArgs ms fs rest
    return [.arr (.arr b :: r)]
termination_by structural a => a
/-- The `Args(exp, _, iterExp)` handler: `[exp, ...iterExp.children].map(toWasm)`. -/
def toWasmArgs (ms : MScope) (fs : FScope) : Args → Except String (List Item)
  | .nil => .ok []
  | .cons e rest => do
    let b ← toWasmExpr ms fs e
    let r ← toWasmArgs ms fs rest
    return .arr b :: r
termination_by structural a => a
/-- The `(binaryOp PrimaryExpr)*` tail items: for each pair, the operand's
bytes (an array element) then the operator's opcode (a bare number). -/
def toWasmChain (ms : MScope) (fs : FScope) : OpChain → Except String (List Item)
  | .nil => .ok []
  | .cons op operand rest => do
    let ob ← toWasmExpr ms fs operand
    let oc ← binaryOp op
    let r ← toWasmChain ms fs rest
    return .arr ob :: .num oc :: r
termination_by structural ch => ch
/-- `toWasm` on statements. -/
def toWasmStmt (ms : MScope) (fs : FScope) : Stmt → Except String Bytes
  | .letS nm init => do
    -- LetStatement: resolve first, then [expr, instr.local.set, localidx(idx)]
    let info ← resolveSymbol nm fs
    let ib ← toWasmExpr ms fs init
    let li ← localidx (Int.ofNat info.idx)
    return [.arr ib, .num instr.localSet, .arr li]
  | .exprS e => do
    -- ExprStatement: [expr, instr.drop]
    let eb ← toWasmExpr ms fs e
    return [.arr eb, .num instr.drop]
  | .ifS c t e => do
    -- IfStatement: elseFrag is computed before the returned array's elements
    let elseFrag ← toWasmElse ms fs e
    let cb ← toWasmExpr ms fs c
    let tb ← toWasmStmts ms fs t
    return [.arr cb, .arr [.num instr.if_, .num blocktype.empty], .arr tb,
            .arr elseFrag, .num instr.end_]
  | .whileS c b => do
    -- WhileStatement: [[loop, empty], cond, [if, empty], body, [br, 1], end, end]
    let cb ← toWasmExpr ms fs c
    let bb ← toWasmStmts ms fs b
    return [.arr [.num instr.loop, .num blocktype.empty], .arr cb,
            .arr [.num instr.if_, .num blocktype.empty], .arr bb,
            .arr [.num instr.br, .num 1], .num instr.end_, .num instr.end_]
termination_by structural s => s
/-- `iterElseBlock.child(0) ? [instr.else, child.toWasm()] : []`. -/
def toWasmElse (ms : MScope) (fs : FScope) : ElseB → Except String Bytes
  | .noneE => .ok []
  | .someE ss => do
    let b ← toWasmStmts ms fs ss
    return [.num instr.else_, .arr b]
termination_by structural e => e
/-- The `BlockStatements` handler: `iterStatement.children.map(toWasm)`. -/
def toWasmStmts (ms : MScope) (fs : FScope) : Stmts → Except String (List Item)
  | .nil => .ok []
  | .cons s rest => do
    let b ← toWasmStmt ms fs s
    let r ← toWasmStmts ms fs rest
    return .arr b :: r
termination_by structural ss => ss
/-- The `BlockExpr` handler: `[...iterStatement.children, expr].map(toWasm)`. -/
def toWasmBlock (ms : MScope) (fs : FScope) : Block → Except String Bytes
  | .mk stmts result => do
    let si ← toWasmStmts ms fs stmts
    let rb ← toWasmExpr ms fs result
    return si ++ [.arr rb]
termination_by structural b => b
end

/-- The `FunctionDecl` handler of `defineToWasm`: push the function's scope
(found by name in the module scope; always present after
`buildSymbolTable`, hence the `getD` default models the TS `!` assertion),
then `[blockExpr.toWasm(), instr.end]`. -/
def toWasmFuncDecl (ms : MScope) (f : FuncDecl) : Except String Bytes := do
  let fs := (mapGet ms f.name).getD []
  let bb ← toWasmBlock ms fs f.body
  return [.arr bb, .num instr.end_]

/-! ## Function-declaration records and module assembly (chapter05) -/

/-- TS `type FunctionDecl` (src/chapters/chapter05.ts): the per-function
record passed to `buildModule`. -/
structure FunctionDecl where
  name : String
  paramTypes : List Int
  resultType : Int
  locals : Bytes
  body : Bytes

/-- The number of `"local"`-kind symbols of a function scope (the `varsCount`
computation in `defineFunctionDecls`). -/
def varsCountOf (localVars : List SymbolInfo) : Nat :=
  (localVars.filter (fun info => info.what == "local")).length

/-- TS `defineFunctionDecls` (src/chapters/chapter05.ts): one record per
declaration; `locals` is the single run-length entry
`[locals(varsCount, valtype.i32)]` (evaluated before `body`, matching the
record literal's field order). -/
def functionDecls (ms : MScope) : List FuncDecl → Except String (List FunctionDecl)
  | [] => .ok []
  | f :: rest => do
    let localVars := ((mapGet ms f.name).getD []).map Prod.snd
    let params := localVars.filter (fun info => info.what == "param")
    let paramTypes := params.map (fun _ => valtype.i32)
    let varsCount := varsCountOf localVars
    let ls ← locals (Int.ofNat varsCount) valtype.i32
    let body ← toWasmFuncDecl ms f
    let ds ← functionDecls ms rest
    return ⟨f.name, paramTypes, valtype.i32, [.arr ls], body⟩ :: ds

/-- Left-to-right effectful map (JS `Array.prototype.map` with a throwing
callback: eager, first error wins). -/
def mapE {α β : Type} (f : α → Except String β) : List α → Except String (List β)
  | [] => .ok []
  | a :: rest => do
    let b ← f a
    let r ← mapE f rest
    return b :: r

/-- Left-to-right effectful map with the element index (JS `map((x, i) => ...)`). -/
def mapIdxE {α β : Type} (f : Nat → α → Except String β) (i : Nat) :
    List α → Except String (List β)
  | [] => .ok []
  | a :: rest => do
    let b ← f i a
    let r ← mapIdxE f (i + 1) rest
    return b :: r

/-- `functionDecls.map((f) => functype(f.paramTypes, [f.resultType]))`. -/
def typesOf (fds : List FunctionDecl) : Except String (List Bytes) :=
  mapE (fun f => functype (f.paramTypes.map Item.num) [Item.num f.resultType]) fds

/-- `functionDecls.map((f, i) => typeidx(i))`. -/
def funcsOf (fds : List FunctionDecl) : Except String (List Bytes) :=
  mapIdxE (fun i _ => typeidx (Int.ofNat i)) 0 fds

/-- `functionDecls.map((f) => code(func(f.locals, f.body)))`. -/
def codesOf (fds : List FunctionDecl) : Except String (List Bytes) :=
  mapE (fun f => do
    let fb ← func f.locals f.body
    code fb) fds

/-- `functionDecls.map((f, i) => export_(f.name, exportdesc.func(i)))`
(the argument `exportdesc.func(i)` is evaluated before `export_` runs). -/
def exportsOf (fds : List FunctionDecl) : Except String (List Bytes) :=
  mapIdxE (fun i f => do
    let d ← exportdesc.func (Int.ofNat i)
    export_ f.name d) 0 fds

/-- TS `buildModule(functionDecls)` (src/chapters/chapter05.ts): assemble the
four sections in the fixed order type, function, export, code after the
8-byte header, flatten, and convert with `Uint8Array.from`. -/
def buildModule (functionDecls : List FunctionDecl) : Except String (List Nat) := do
  let types ← typesOf functionDecls
  let funcs ← funcsOf functionDecls
  let codes ← codesOf functionDecls
  let exports ← exportsOf functionDecls
  let ts ← typesec (types.map Item.arr)
  let fsec ← funcsec (funcs.map Item.arr)
  let es ← exportsec (exports.map Item.arr)
  let cs ← codesec (codes.map Item.arr)
  return uint8FromList (flatten (module [.arr ts, .arr fsec, .arr es, .arr cs]))

/-- TS `compile(source)` (src/chapters/chapter06.ts), starting after the
external parse: build the whole-module symbol table first, then generate all
function records, then assemble the module. -/
def compile (m : List FuncDecl) : Except String (List Nat) := do
  let symbols := buildSymbolTable m
  let fds ← functionDecls symbols m
  buildModule fds

/-- TS `toWasmFlat` for a single `FunctionDecl` (src/chapters/chapter05.ts,
used by the repository's own tests). -/
def toWasmFlat (f : FuncDecl) : Except String (List Int) := do
  let symbols := buildSymbolTable [f]
  let b ← toWasmFuncDecl symbols f
  return flatten b

/-! ## Declared-let bookkeeping for the symbol-table claims

`lets*` collects the let names the builder walk actually visits, in walk
(= textual) order; `letsT*` collects every let statement textually, including
those nested inside another let's initializer expression, which the builder's
`LetStatement` handler never visits (it does not recurse into `_expr`). -/

mutual
def letsExpr : Expr → List String
  | .num _ => []
  | .var _ => []
  | .call _ args => letsArgs args
  | .assign _ rhs => letsExpr rhs
  | .binary first rest => letsExpr first ++ letsChain rest
  | .ifE c t e => letsExpr c ++ (letsBlock t ++ letsBlock e)
termination_by structural e => e
def letsArgs : Args → List String
  | .nil => []
  | .cons e rest => letsExpr e ++ letsArgs rest
termination_by structural a => a
def letsChain : OpChain → List String
  | .nil => []
  | .cons _ operand rest => letsExpr operand ++ letsChain rest
termination_by structural ch => ch
def letsStmt : Stmt → List String
  | .letS n _ => [n]
  | .exprS e => letsExpr e
  | .ifS c t e => letsExpr c ++ (letsStmts t ++ letsElse e)
  | .whileS c b => letsExpr c ++ letsStmts b
termination_by structural s => s
def letsElse : ElseB → List String
  | .noneE => []
  | .someE ss => letsStmts ss
termination_by structural e => e
def letsStmts : Stmts → List String
  | .nil => []
  | .cons s rest => letsStmt s ++ letsStmts rest
termination_by structural ss => ss
def letsBlock : Block → List String
  | .mk stmts result => letsStmts stmts ++ letsExpr result
termination_by structural b => b
end

mutual
def letsTExpr : Expr → List String
  | .num _ => []
  | .var _ => []
  | .call _ args => letsTArgs args
  | .assign _ rhs => letsTExpr rhs
  | .binary first rest => letsTExpr first ++ letsTChain rest
  | .ifE c t e => letsTExpr c ++ (letsTBlock t ++ letsTBlock e)
termination_by structural e => e
def letsTArgs : Args → List String
  | .nil => []
  | .cons e rest => letsTExpr e ++ letsTArgs rest
termination_by structural a => a
def letsTChain : OpChain → List String
  | .nil => []
  | .cons _ operand rest => letsTExpr operand ++ letsTChain rest
termination_by structural ch => ch
def letsTStmt : Stmt → List String
  | .letS n init => n :: letsTExpr init
  | .exprS e => letsTExpr e
  | .ifS c t e => letsTExpr c ++ (letsTStmts t ++ letsTElse e)
  | .whileS c b => letsTExpr c ++ letsTStmts b
termination_by structural s => s
def letsTElse : ElseB → List String
  | .noneE => []
  | .someE ss => letsTStmts ss
termination_by structural e => e
def letsTStmts : Stmts → List String
  | .nil => []
  | .cons s rest => letsTStmt s ++ letsTStmts rest
termination_by structural ss => ss
def letsTBlock : Block → List String
  | .mk stmts result => letsTStmts stmts ++ letsTExpr result
termination_by structural b => b
end

/-- The scope fragment a run of fresh parameter registrations produces:
names paired with consecutive `"param"` symbols starting at `base`. -/
def mkParams (base : Nat) : List String → FScope
  | [] => []
  | n :: rest => (n, ⟨n, base, "param"⟩) :: mkParams (base + 1) rest

/-- The scope fragment a run of fresh let registrations produces:
names paired with consecutive `"local"` symbols starting at `base`. -/
def mkLocals (base : Nat) : List String → FScope
  | [] => []
  | n :: rest => (n, ⟨n, base, "local"⟩) :: mkLocals (base + 1) rest

/-- The body `{ let a = if 1 { let z = 1; z } else { 0 }; a }`: two textually
distinct let statements, the second nested inside the first one's
initializer. -/
def c1cexBody : Block :=
  .mk (.cons (.letS "a"
        (.ifE (.num 1)
          (.mk (.cons (.letS "z" (.num 1)) .nil) (.var "z"))
          (.mk .nil (.num 0))))
      .nil)
    (.var "a")

def c1cexDecl : FuncDecl := ⟨"f", [], c1cexBody⟩

/-! ## Binary chains as lists (for the left-associative fold claim) -/

/-- The `(binaryOp PrimaryExpr)*` tail of a binary chain, from a list of
(operator token, operand) pairs in source order. -/
def chainOfList : List (String × Expr) → OpChain
  | [] => .nil
  | (op, e) :: rest => .cons op e (chainOfList rest)

/-- The items the generator pushes for a chain tail: for each pair, the
operand's fragment then the operator's opcode. -/
def chainItems : List Bytes → List Int → List Item
  | ob :: obs, oc :: ocs => .arr ob :: .num oc :: chainItems obs ocs
  | _, _ => []

/-! Sanity checks against the repository's vitest expectations
(src/chapters/chapter05.ts `describe("toWasm")`). -/

example : toWasmFlat ⟨"main", [], .mk .nil (.num 42)⟩ = .ok [0x41, 42, 0x0b] := by
  rfl

example :
    toWasmFlat ⟨"main", [], .mk (.cons (.letS "x" (.num 10)) .nil) (.var "x")⟩ =
      .ok [0x41, 10, 0x21, 0, 0x20, 0, 0x0b] := by
  rfl

example :
    toWasmFlat ⟨"f2", ["a", "b"], .mk (.cons (.letS "x" (.num 12)) .nil) (.var "b")⟩ =
      .ok [0x41, 12, 0x21, 2, 0x20, 1, 0x0b] := by
  rfl

example :
    toWasmFlat ⟨"main", [],
        .mk (.cons (.letS "x" (.num 10)) (.cons (.exprS (.assign "x" (.num 9))) .nil))
          (.var "x")⟩ =
      .ok [0x41, 10, 0x21, 0, 0x41, 9, 0x22, 0, 0x1a, 0x20, 0, 0x0b] := by
  rfl

/-! ## General lemmas about maps and scope fragments -/

theorem keys_cons {α : Type} (p : String × α) (m : List (String × α)) :
    keys (p :: m) = p.1 :: keys m := rfl

theorem keys_append {α : Type} (a b : List (String × α)) :
    keys (a ++ b) = keys a ++ keys b := by
  simp [keys]

/-- Setting a key absent from the map appends the new binding. -/
theorem mapSet_fresh {α : Type} (m : List (String × α)) (k : String) (v : α)
    (h : k ∉ keys m) : mapSet m k v = m ++ [(k, v)] := by
  induction m with
  | nil => rfl
  | cons p rest ih =>
    obtain ⟨k', v'⟩ := p
    rw [keys_cons] at h
    simp only [List.mem_cons, not_or] at h
    simp [mapSet, Ne.symm h.1, ih h.2]

theorem mapGet_eq_none {α : Type} (m : List (String × α)) (k : String)
    (h : k ∉ keys m) : mapGet m k = none := by
  induction m with
  | nil => rfl
  | cons p rest ih =>
    obtain ⟨k', v'⟩ := p
    rw [keys_cons] at h
    simp only [List.mem_cons, not_or] at h
    simp [mapGet, Ne.symm h.1, ih h.2]

theorem mapGet_append_left {α : Type} (a b : List (String × α)) (k : String) (v : α)
    (h : mapGet a k = some v) : mapGet (a ++ b) k = some v := by
  induction a with
  | nil => simp [mapGet] at h
  | cons p rest ih =>
    obtain ⟨k', v'⟩ := p
    by_cases hk : k' = k
    · simpa [mapGet, hk] using h
    · rw [mapGet, if_neg hk] at h
      simpa [mapGet, hk] using ih h

theorem mapGet_append_right {α : Type} (a b : List (String × α)) (k : String)
    (h : k ∉ keys a) : mapGet (a ++ b) k = mapGet b k := by
  induction a with
  | nil => rfl
  | cons p rest ih =>
    obtain ⟨k', v'⟩ := p
    rw [keys_cons] at h
    simp only [List.mem_cons, not_or] at h
    simp [mapGet, Ne.symm h.1, ih h.2]

theorem mkLocals_append (base : Nat) (a b : List String) :
    mkLocals base (a ++ b) = mkLocals base a ++ mkLocals (base + a.length) b := by
  induction a generalizing base with
  | nil => simp [mkLocals]
  | cons n rest ih => simp [mkLocals, ih, Nat.add_assoc, Nat.add_comm 1 rest.length]

theorem keys_mkLocals (base : Nat) (ns : List String) : keys (mkLocals base ns) = ns := by
  induction ns generalizing base with
  | nil => rfl
  | cons n rest ih =>
    simp only [mkLocals, keys_cons]
    rw [ih]

theorem length_mkLocals (base : Nat) (ns : List String) :
    (mkLocals base ns).length = ns.length := by
  induction ns generalizing base with
  | nil => rfl
  | cons n rest ih => simp [mkLocals, ih]

theorem keys_mkParams (base : Nat) (ns : List String) : keys (mkParams base ns) = ns := by
  induction ns generalizing base with
  | nil => rfl
  | cons n rest ih =>
    simp only [mkParams, keys_cons]
    rw [ih]

theorem length_mkParams (base : Nat) (ns : List String) :
    (mkParams base ns).length = ns.length := by
  induction ns generalizing base with
  | nil => rfl
  | cons n rest ih => simp [mkParams, ih]

/-- Composing two scope steps that each append a fresh batch of locals
appends the concatenated batch with consecutive indices. -/
theorem scope_comp (sc : FScope) (L1 L2 : List String) (y z : FScope)
    (h : (keys sc ++ (L1 ++ L2)).Nodup)
    (h1 : (keys sc ++ L1).Nodup → y = sc ++ mkLocals sc.length L1)
    (h2 : (keys y ++ L2).Nodup → z = y ++ mkLocals y.length L2) :
    z = sc ++ mkLocals sc.length (L1 ++ L2) := by
  have hassoc : (keys sc ++ (L1 ++ L2)) = ((keys sc ++ L1) ++ L2) := by simp
  rw [hassoc] at h
  have hnd1 : (keys sc ++ L1).Nodup := h.sublist (List.sublist_append_left _ _)
  have hy := h1 hnd1
  have hkeysy : keys y = keys sc ++ L1 := by
    rw [hy, keys_append, keys_mkLocals]
  have hleny : y.length = sc.length + L1.length := by
    rw [hy]; simp [length_mkLocals]
  have hz := h2 (by rw [hkeysy]; exact h)
  rw [hz, hleny, hy, mkLocals_append, List.append_assoc]

/-! ## The symbol-table walk appends fresh lets sequentially -/

mutual
theorem stExpr_fresh (e : Expr) : ∀ (sc : FScope),
    (keys sc ++ letsExpr e).Nodup → stExpr sc e = sc ++ mkLocals sc.length (letsExpr e) := by
  intro sc h
  cases e with
  | num n => simp [stExpr, letsExpr, mkLocals]
  | var n => simp [stExpr, letsExpr, mkLocals]
  | call n args =>
    rw [stExpr, letsExpr]
    exact stArgs_fresh args sc (by rw [letsExpr] at h; exact h)
  | assign n rhs =>
    rw [stExpr, letsExpr]
    exact stExpr_fresh rhs sc (by rw [letsExpr] at h; exact h)
  | binary first rest =>
    rw [stExpr, letsExpr]
    rw [letsExpr] at h
    exact scope_comp sc _ _ _ _ h (stExpr_fresh first sc) (stChain_fresh rest _)
  | ifE c t e =>
    rw [stExpr, letsExpr, ← List.append_assoc]
    rw [letsExpr] at h
    refine scope_comp sc (letsExpr c ++ letsBlock t) (letsBlock e) _ _ (by simpa using h)
      (fun h' => scope_comp sc _ _ _ _ h' (stExpr_fresh c sc) (stBlock_fresh t _))
      (stBlock_fresh e _)
theorem stArgs_fresh (a : Args) : ∀ (sc : FScope),
    (keys sc ++ letsArgs a).Nodup → stArgs sc a = sc ++ mkLocals sc.length (letsArgs a) := by
  intro sc h
  cases a with
  | nil => simp [stArgs, letsArgs, mkLocals]
  | cons e rest =>
    rw [stArgs, letsArgs]
    rw [letsArgs] at h
    exact scope_comp sc _ _ _ _ h (stExpr_fresh e sc) (stArgs_fresh rest _)
theorem stChain_fresh (ch : OpChain) : ∀ (sc : FScope),
    (keys sc ++ letsChain ch).Nodup → stChain sc ch = sc ++ mkLocals sc.length (letsChain ch) := by
  intro sc h
  cases ch with
  | nil => simp [stChain, letsChain, mkLocals]
  | cons op operand rest =>
    rw [stChain, letsChain]
    rw [letsChain] at h
    exact scope_comp sc _ _ _ _ h (stExpr_fresh operand sc) (stChain_fresh rest _)
theorem stStmt_fresh (s : Stmt) : ∀ (sc : FScope),
    (keys sc ++ letsStmt s).Nodup → stStmt sc s = sc ++ mkLocals sc.length (letsStmt s) := by
  intro sc h
  cases s with
  | letS n init =>
    rw [stStmt, letsStmt]
    rw [letsStmt] at h
    have hn : n ∉ keys sc := by
      intro hmem
      exact (List.disjoint_of_nodup_append h) hmem (by simp)
    rw [mapSet_fresh _ _ _ hn]
    simp [mkLocals]
  | exprS e =>
    rw [stStmt, letsStmt]
    exact stExpr_fresh e sc (by rw [letsStmt] at h; exact h)
  | ifS c t e =>
    rw [stStmt, letsStmt, ← List.append_assoc]
    rw [letsStmt] at h
    refine scope_comp sc (letsExpr c ++ letsStmts t) (letsElse e) _ _ (by simpa using h)
      (fun h' => scope_comp sc _ _ _ _ h' (stExpr_fresh c sc) (stStmts_fresh t _))
      (stElse_fresh e _)
  | whileS c b =>
    rw [stStmt, letsStmt]
    rw [letsStmt] at h
    exact scope_comp sc _ _ _ _ h (stExpr_fresh c sc) (stStmts_fresh b _)
theorem stElse_fresh (e : ElseB) : ∀ (sc : FScope),
    (keys sc ++ letsElse e).Nodup → stElse sc e = sc ++ mkLocals sc.length (letsElse e) := by
  intro sc h
  cases e with
  | noneE => simp [stElse, letsElse, mkLocals]
  | someE ss =>
    rw [stElse, letsElse]
    exact stStmts_fresh ss sc (by rw [letsElse] at h; exact h)
theorem stStmts_fresh (ss : Stmts) : ∀ (sc : FScope),
    (keys sc ++ letsStmts ss).Nodup → stStmts sc ss = sc ++ mkLocals sc.length (letsStmts ss) := by
  intro sc h
  cases ss with
  | nil => simp [stStmts, letsStmts, mkLocals]
  | cons s rest =>
    rw [stStmts, letsStmts]
    rw [letsStmts] at h
    exact scope_comp sc _ _ _ _ h (stStmt_fresh s sc) (stStmts_fresh rest _)
theorem stBlock_fresh (b : Block) : ∀ (sc : FScope),
    (keys sc ++ letsBlock b).Nodup → stBlock sc b = sc ++ mkLocals sc.length (letsBlock b) := by
  intro sc h
  cases b with
  | mk stmts result =>
    rw [stBlock, letsBlock]
    rw [letsBlock] at h
    exact scope_comp sc _ _ _ _ h (stStmts_fresh stmts sc) (stExpr_fresh result _)
end

/-- Registering a run of pairwise-fresh parameters appends them with
consecutive `"param"` indices. -/
theorem stParams_fresh (ps : List String) : ∀ (sc : FScope),
    (keys sc ++ ps).Nodup → stParams sc ps = sc ++ mkParams sc.length ps := by
  induction ps with
  | nil => intro sc h; simp [stParams, mkParams]
  | cons n rest ih =>
    intro sc h
    have hn : n ∉ keys sc := by
      intro hmem
      exact (List.disjoint_of_nodup_append h) hmem (by simp)
    rw [stParams, mapSet_fresh _ _ _ hn]
    have h' : (keys (sc ++ [(n, (⟨n, sc.length, "param"⟩ : SymbolInfo))]) ++ rest).Nodup := by
      rw [keys_append]
      simpa [keys] using h
    rw [ih _ h']
    simp [mkParams, keys]

/-- The function scope built for a declaration whose parameter names and
walk-visited let names are pairwise distinct: parameters first with indices
`0..p-1`, then the visited lets with indices `p..p+l-1`. -/
theorem fscopeOf_eq (f : FuncDecl)
    (h : (f.params ++ letsBlock f.body).Nodup) :
    fscopeOf f = mkParams 0 f.params ++ mkLocals f.params.length (letsBlock f.body) := by
  unfold fscopeOf
  have hp : stParams [] f.params = mkParams 0 f.params := by
    have : (keys ([] : FScope) ++ f.params).Nodup := by
      simpa [keys] using h.sublist (List.sublist_append_left _ _)
    simpa [keys] using stParams_fresh f.params [] this
  rw [hp]
  have hb : (keys (mkParams 0 f.params) ++ letsBlock f.body).Nodup := by
    rw [keys_mkParams]; exact h
  rw [stBlock_fresh f.body _ hb, length_mkParams]

theorem idxs_mkParams (ns : List String) : ∀ (base : Nat),
    (mkParams base ns).map (fun en => en.2.idx) = List.range' base ns.length := by
  induction ns with
  | nil => intro base; rfl
  | cons n rest ih => intro base; simp [mkParams, ih, List.range'_succ]

theorem idxs_mkLocals (ns : List String) : ∀ (base : Nat),
    (mkLocals base ns).map (fun en => en.2.idx) = List.range' base ns.length := by
  induction ns with
  | nil => intro base; rfl
  | cons n rest ih => intro base; simp [mkLocals, ih, List.range'_succ]

theorem mapGet_mkParams (ns : List String) (hnd : ns.Nodup) :
    ∀ (base : Nat) (i : Nat) (hi : i < ns.length),
      mapGet (mkParams base ns) (ns.get ⟨i, hi⟩) =
        some ⟨ns.get ⟨i, hi⟩, base + i, "param"⟩ := by
  induction ns with
  | nil => intro base i hi; exact absurd hi (Nat.not_lt_zero i)
  | cons n rest ih =>
    intro base i hi
    cases i with
    | zero => simp [mkParams, mapGet]
    | succ j =>
      have hj : j < rest.length := Nat.lt_of_succ_lt_succ hi
      have hmem : rest.get ⟨j, hj⟩ ∈ rest := List.get_mem rest j hj
      have hne : n ≠ rest.get ⟨j, hj⟩ := by
        intro he; exact (List.nodup_cons.mp hnd).1 (he ▸ hmem)
      have := ih (List.nodup_cons.mp hnd).2 (base + 1) j hj
      simp only [mkParams, mapGet, List.get_cons_succ]
      rw [if_neg hne, this, Nat.add_assoc, Nat.add_comm 1 j]

theorem mapGet_mkLocals (ns : List String) (hnd : ns.Nodup) :
    ∀ (base : Nat) (i : Nat) (hi : i < ns.length),
      mapGet (mkLocals base ns) (ns.get ⟨i, hi⟩) =
        some ⟨ns.get ⟨i, hi⟩, base + i, "local"⟩ := by
  induction ns with
  | nil => intro base i hi; exact absurd hi (Nat.not_lt_zero i)
  | cons n rest ih =>
    intro base i hi
    cases i with
    | zero => simp [mkLocals, mapGet]
    | succ j =>
      have hj : j < rest.length := Nat.lt_of_succ_lt_succ hi
      have hmem : rest.get ⟨j, hj⟩ ∈ rest := List.get_mem rest j hj
      have hne : n ≠ rest.get ⟨j, hj⟩ := by
        intro he; exact (List.nodup_cons.mp hnd).1 (he ▸ hmem)
      have := ih (List.nodup_cons.mp hnd).2 (base + 1) j hj
      simp only [mkLocals, mapGet, List.get_cons_succ]
      rw [if_neg hne, this, Nat.add_assoc, Nat.add_comm 1 j]

/-- C1 (amended): for every function declaration whose p parameters and l
walk-visited let statements (those not nested inside another let's
initializer) have pairwise-distinct names, `buildSymbolTable` assigns storage
indices sequentially from 0 in textual order — parameters first, then those
lets — so the scope is exactly the parameter symbols `0..p-1` followed by the
local symbols `p..p+l-1`, the assigned indices are exactly `0..p+l-1`, and
resolving each declared identifier returns its symbol, every parameter index
below every local index. -/
theorem C1_symbol_table_indices (f : FuncDecl)
    (h : (f.params ++ letsBlock f.body).Nodup) :
    mapGet (buildSymbolTable [f]) f.name = some (fscopeOf f) ∧
    fscopeOf f = mkParams 0 f.params ++ mkLocals f.params.length (letsBlock f.body) ∧
    (fscopeOf f).map (fun en => en.2.idx) =
      List.range (f.params.length + (letsBlock f.body).length) ∧
    (∀ i (hi : i < f.params.length),
      resolveSymbol (f.params.get ⟨i, hi⟩) (fscopeOf f) =
        .ok ⟨f.params.get ⟨i, hi⟩, i, "param"⟩) ∧
    (∀ j (hj : j < (letsBlock f.body).length),
      resolveSymbol ((letsBlock f.body).get ⟨j, hj⟩) (fscopeOf f) =
        .ok ⟨(letsBlock f.body).get ⟨j, hj⟩, f.params.length + j, "local"⟩) := by
  obtain ⟨hndp, hndl, hdisj⟩ := List.nodup_append.mp h
  have heq := fscopeOf_eq f h
  refine ⟨by simp [buildSymbolTable, buildSTAux, mapSet, mapGet], heq, ?_, ?_, ?_⟩
  · rw [heq, List.map_append, idxs_mkParams, idxs_mkLocals, List.range_eq_range']
    have := List.range'_append 0 f.params.length (letsBlock f.body).length 1
    simp only [Nat.zero_add, Nat.one_mul] at this
    rw [Nat.add_comm f.params.length (letsBlock f.body).length]
    exact this
  · intro i hi
    have hget := mapGet_mkParams f.params hndp 0 i hi
    have hget' := mapGet_append_left _
      (mkLocals f.params.length (letsBlock f.body)) _ _ hget
    simp only [Nat.zero_add] at hget'
    rw [heq]
    unfold resolveSymbol
    rw [hget']
  · intro j hj
    have hmem : (letsBlock f.body).get ⟨j, hj⟩ ∈ letsBlock f.body := List.get_mem _ j hj
    have hnotp : (letsBlock f.body).get ⟨j, hj⟩ ∉ keys (mkParams 0 f.params) := by
      rw [keys_mkParams]
      intro hin
      exact hdisj hin hmem
    have hget := mapGet_mkLocals (letsBlock f.body) hndl f.params.length j hj
    rw [heq]
    unfold resolveSymbol
    rw [mapGet_append_right _ _ _ hnotp, hget]

theorem C1_symbol_table_indices_witness :
    fscopeOf ⟨"f2", ["a", "b"], .mk (.cons (.letS "x" (.num 12)) .nil) (.var "b")⟩ =
      [("a", ⟨"a", 0, "param"⟩), ("b", ⟨"b", 1, "param"⟩), ("x", ⟨"x", 2, "local"⟩)] := by
  have h := C1_symbol_table_indices
    ⟨"f2", ["a", "b"], .mk (.cons (.letS "x" (.num 12)) .nil) (.var "b")⟩ (by decide)
  exact h.2.1.trans (by decide)

/-- C1 counterexample: a function with 0 parameters and 2 textual let
statements with pairwise-distinct names whose symbol table contains only one
of them — the nested let is skipped by the builder, so resolving it fails and
the assigned indices do not cover `0..1`. -/
theorem C1_counterexample :
    letsTBlock c1cexBody = ["a", "z"] ∧
    (c1cexDecl.params ++ letsTBlock c1cexBody).Nodup ∧
    fscopeOf c1cexDecl = [("a", ⟨"a", 0, "local"⟩)] ∧
    resolveSymbol "z" (fscopeOf c1cexDecl) =
      .error "Error: undeclared identifier \x27z\x27" :=
  ⟨by decide, by decide, by decide, rfl⟩

/-! ## Reduction helpers for `Except` do-blocks -/

theorem ok_bind {α β : Type} (a : α) (f : α → Except String β) :
    (Except.ok a : Except String α) >>= f = f a := rfl

theorem error_bind {α β : Type} (e : String) (f : α → Except String β) :
    (Except.error e : Except String α) >>= f = .error e := rfl

theorem pure_eq_ok {α : Type} (a : α) : (pure a : Except String α) = .ok a := rfl

/-! ## Module scope facts (for the call-index claims) -/

/-- Accumulating pairwise-fresh function declarations appends their
name-to-scope bindings in declaration order. -/
theorem buildSTAux_eq (l : List FuncDecl) : ∀ (ms : MScope),
    (keys ms ++ l.map FuncDecl.name).Nodup →
    buildSTAux ms l = ms ++ l.map (fun f => (f.name, fscopeOf f)) := by
  induction l with
  | nil => intro ms h; simp [buildSTAux]
  | cons f rest ih =>
    intro ms h
    have hn : f.name ∉ keys ms := by
      intro hmem
      exact (List.disjoint_of_nodup_append h) hmem (by simp)
    rw [buildSTAux, mapSet_fresh _ _ _ hn]
    have h' : (keys (ms ++ [(f.name, fscopeOf f)]) ++ rest.map FuncDecl.name).Nodup := by
      rw [keys_append]
      simpa [keys] using h
    rw [ih _ h']
    simp

/-- With pairwise-distinct function names, the module scope's insertion order
is exactly declaration order. -/
theorem keys_buildSymbolTable (m : List FuncDecl)
    (h : (m.map FuncDecl.name).Nodup) :
    keys (buildSymbolTable m) = m.map FuncDecl.name := by
  unfold buildSymbolTable
  rw [buildSTAux_eq m [] (by simpa [keys] using h)]
  simp [keys]

/-- `Array.prototype.indexOf` via `findIdx?`: in a duplicate-free list the
element at position `j` is found at `j`. -/
theorem findIdx?_get_of_nodup (l : List String) :
    ∀ (j : Nat) (hj : j < l.length), l.Nodup →
      ∀ (i : Nat), l.findIdx? (· == l.get ⟨j, hj⟩) i = some (i + j) := by
  induction l with
  | nil => intro j hj; exact absurd hj (Nat.not_lt_zero j)
  | cons a rest ih =>
    intro j hj hnd i
    cases j with
    | zero => simp [List.findIdx?_cons]
    | succ k =>
      have hk : k < rest.length := Nat.lt_of_succ_lt_succ hj
      have hmem : rest.get ⟨k, hk⟩ ∈ rest := List.get_mem rest k hk
      have hne : a ≠ rest.get ⟨k, hk⟩ := by
        intro he; exact (List.nodup_cons.mp hnd).1 (he ▸ hmem)
      simp only [List.findIdx?_cons, List.get_cons_succ]
      rw [if_neg (by simpa using hne), ih k hk (List.nodup_cons.mp hnd).2 (i + 1)]
      congr 1
      omega

/-- `indexOf` misses: a name not in the list is never found. -/
theorem findIdx?_none_of_not_mem (l : List String) (n : String) (hn : n ∉ l) :
    ∀ (i : Nat), l.findIdx? (· == n) i = none := by
  induction l with
  | nil => intro i; rfl
  | cons a rest ih =>
    intro i
    have hne : a ≠ n := fun he => hn (he ▸ List.mem_cons_self a rest)
    simp only [List.findIdx?_cons]
    rw [if_neg (by simpa using hne)]
    exact ih (fun hm => hn (List.mem_cons_of_mem a hm)) (i + 1)

/-- C2: the function index emitted at a call site equals the callee's
position in function declaration order (the module scope's insertion order),
for any call site (any current function scope `fs` and argument list): the
whole-module symbol table is built to completion before code generation
(`compile` calls `buildSymbolTable` before `functionDecls`), so forward calls
and direct or mutual recursion resolve to the declaration-order index. -/
theorem C2_call_index_is_declaration_order (m : List FuncDecl) (fs : FScope)
    (args : Args) (j : Nat) (ab : Bytes)
    (hnd : (m.map FuncDecl.name).Nodup)
    (hj : j < m.length)
    (hj127 : (Int.ofNat j) ≤ 127)
    (hargs : toWasmArgsOpt (buildSymbolTable m) fs args = .ok ab) :
    toWasmExpr (buildSymbolTable m) fs (.call (m.get ⟨j, hj⟩).name args) =
      .ok [.arr ab, .arr [.num instr.call, .arr [.num (Int.ofNat j)]]] := by
  have hkeys := keys_buildSymbolTable m hnd
  have hj' : j < (m.map FuncDecl.name).length := by simpa using hj
  have hget : (m.map FuncDecl.name).get ⟨j, hj'⟩ = (m.get ⟨j, hj⟩).name := by
    simp
  have hfind : (keys (buildSymbolTable m)).findIdx? (· == (m.get ⟨j, hj⟩).name) 0 =
      some j := by
    rw [hkeys, ← hget]
    simpa using findIdx?_get_of_nodup (m.map FuncDecl.name) j hj' hnd 0
  simp only [toWasmExpr, hfind, hargs, ok_bind]
  simp only [funcidx, u32, if_pos hj127, ok_bind, pure_eq_ok]

theorem C2_call_index_is_declaration_order_witness :
    toWasmExpr
        (buildSymbolTable
          [⟨"doIt", [], .mk .nil (.call "add" (.cons (.num 1) (.cons (.num 2) .nil)))⟩,
           ⟨"add", ["x", "y"], .mk .nil (.binary (.var "x") (.cons "+" (.var "y") .nil))⟩])
        [] (.call "add" (.cons (.num 1) (.cons (.num 2) .nil))) =
      .ok [.arr [.arr [.arr [.num 0x41, .num 1], .arr [.num 0x41, .num 2]]],
           .arr [.num instr.call, .arr [.num 1]]] := by
  have h := C2_call_index_is_declaration_order
    [⟨"doIt", [], .mk .nil (.call "add" (.cons (.num 1) (.cons (.num 2) .nil)))⟩,
     ⟨"add", ["x", "y"], .mk .nil (.binary (.var "x") (.cons "+" (.var "y") .nil))⟩]
    [] (.cons (.num 1) (.cons (.num 2) .nil)) 1
    [.arr [.arr [.num 0x41, .num 1], .arr [.num 0x41, .num 2]]]
    (by decide) (by decide) (by decide) rfl
  simpa using h

/-- C9: a call whose callee name is not a declared function raises no error:
`indexOf` yields `-1`, which passes the `u32` guard (`-1 <= 127`), so the
generated code carries function-index operand `-1`; a whole-module
compilation of `func main() { foo() }` likewise succeeds, emitting byte `255`
(the wrapped `-1`) as the call target of an otherwise well-formed module. -/
theorem C9_unknown_callee_emits_minus_one (ms : MScope) (fs : FScope)
    (nm : String) (args : Args) (ab : Bytes)
    (habsent : nm ∉ keys ms)
    (hargs : toWasmArgsOpt ms fs args = .ok ab) :
    toWasmExpr ms fs (.call nm args) =
      .ok [.arr ab, .arr [.num instr.call, .arr [.num (-1)]]] ∧
    compile [⟨"main", [], .mk .nil (.call "foo" .nil)⟩] =
      .ok [0, 97, 115, 109, 1, 0, 0, 0,
           1, 5, 1, 0x60, 0, 1, 0x7f,
           3, 2, 1, 0,
           7, 8, 1, 4, 109, 97, 105, 110, 0, 0,
           10, 8, 1, 6, 1, 0, 0x7f, 0x10, 255, 0x0b] := by
  constructor
  · have hfind := findIdx?_none_of_not_mem (keys ms) nm habsent 0
    simp only [toWasmExpr, hfind, hargs, ok_bind]
    simp only [funcidx, u32, show ((-1 : Int) ≤ 127) from by norm_num, if_pos,
      ok_bind, pure_eq_ok]
  · rfl

theorem C9_unknown_callee_emits_minus_one_witness :
    toWasmExpr [] [] (.call "foo" .nil) =
      .ok [.arr [], .arr [.num instr.call, .arr [.num (-1)]]] :=
  (C9_unknown_callee_emits_minus_one [] [] "foo" .nil []
    (by decide) rfl).1

/-! ## Encoder guard lemmas -/

theorem u32_ok (v : Int) (h : v ≤ 127) : u32 v = .ok [.num v] := by
  unfold u32; rw [if_pos h]

theorem u32_error (v : Int) (h : 127 < v) : u32 v = .error "Not Implemented" := by
  unfold u32; rw [if_neg (by omega)]

theorem i32_ok (v : Int) (h : v ≤ 63) : i32 v = .ok [.num v] := by
  unfold i32; rw [if_pos h]

theorem i32_error (v : Int) (h : 63 < v) : i32 v = .error "Not Implemented" := by
  unfold i32; rw [if_neg (by omega)]

/-- C3: every section's emitted length field is exactly the byte length of
its flattened contents (when that length passes the one-byte encoder's
guard), every vector's emitted count is exactly its element count, and every
code-table entry's size prefix is exactly the byte length of the encoded
function it wraps. -/
theorem C3_length_and_count_prefixes (id : Int) (contents elements fn : Bytes) :
    ((flatten contents).length ≤ 127 →
      section_ id contents =
        .ok [.num id, .arr [.num (Int.ofNat (flatten contents).length)], .arr contents]) ∧
    (elements.length ≤ 127 →
      vec elements = .ok (.arr [.num (Int.ofNat elements.length)] :: elements)) ∧
    ((flatten fn).length ≤ 127 →
      code fn = .ok [.arr [.num (Int.ofNat (flatten fn).length)], .arr fn]) := by
  refine ⟨fun h => ?_, fun h => ?_, fun h => ?_⟩
  · have hu := u32_ok (Int.ofNat (flatten contents).length) (Int.ofNat_le.mpr h)
    simp only [section_, hu, ok_bind, pure_eq_ok]
  · have hu := u32_ok (Int.ofNat elements.length) (Int.ofNat_le.mpr h)
    simp only [vec, hu, ok_bind, pure_eq_ok]
  · have hu := u32_ok (Int.ofNat (flatten fn).length) (Int.ofNat_le.mpr h)
    simp only [code, hu, ok_bind, pure_eq_ok]

theorem C3_length_and_count_prefixes_witness :
    section_ 1 [.num 5, .arr [.num 6]] =
      .ok [.num 1, .arr [.num 2], .arr [.num 5, .arr [.num 6]]] ∧
    vec [.num 7, .num 8, .num 9] =
      .ok [.arr [.num 3], .num 7, .num 8, .num 9] ∧
    code [.arr [.num 0], .num 0x0b] = .ok [.arr [.num 2], .arr [.arr [.num 0], .num 0x0b]] :=
  ⟨((C3_length_and_count_prefixes 1 [.num 5, .arr [.num 6]] [] []).1 (by decide)).trans rfl,
   ((C3_length_and_count_prefixes 1 [] [.num 7, .num 8, .num 9] []).2.1 (by decide)).trans rfl,
   ((C3_length_and_count_prefixes 1 [] [] [.arr [.num 0], .num 0x0b]).2.2 (by decide)).trans rfl⟩

/-- C5: a while statement is lowered to a single `loop` construct (empty
block type) wrapping the condition code and an `if` block (empty block type)
containing the body followed by `br 1` (branching to the loop's own start),
closed by the two `end` markers — only structured block/loop/branch forms,
and the flattened byte stream is exactly that sequence. -/
theorem C5_while_lowering (ms : MScope) (fs : FScope) (c : Expr) (b : Stmts)
    (cb : Bytes) (bb : List Item)
    (hc : toWasmExpr ms fs c = .ok cb)
    (hb : toWasmStmts ms fs b = .ok bb) :
    toWasmStmt ms fs (.whileS c b) =
      .ok [.arr [.num instr.loop, .num blocktype.empty], .arr cb,
           .arr [.num instr.if_, .num blocktype.empty], .arr bb,
           .arr [.num instr.br, .num 1], .num instr.end_, .num instr.end_] ∧
    flatten [.arr [.num instr.loop, .num blocktype.empty], .arr cb,
             .arr [.num instr.if_, .num blocktype.empty], .arr bb,
             .arr [.num instr.br, .num 1], .num instr.end_, .num instr.end_] =
      [instr.loop, blocktype.empty] ++ flatten cb ++
        [instr.if_, blocktype.empty] ++ flatten bb ++
        [instr.br, 1, instr.end_, instr.end_] := by
  constructor
  · simp only [toWasmStmt, hc, hb, ok_bind, pure_eq_ok]
  · simp [flatten, flattenItem, List.append_assoc]

theorem C5_while_lowering_witness :
    toWasmStmt [] [("x", ⟨"x", 0, "local"⟩)]
        (.whileS (.var "x") (.cons (.exprS (.num 1)) .nil)) =
      .ok [.arr [.num instr.loop, .num blocktype.empty],
           .arr [.num instr.localGet, .arr [.num 0]],
           .arr [.num instr.if_, .num blocktype.empty],
           .arr [.arr [.arr [.num instr.i32.const, .num 1], .num instr.drop]],
           .arr [.num instr.br, .num 1], .num instr.end_, .num instr.end_] :=
  (C5_while_lowering [] [("x", ⟨"x", 0, "local"⟩)] (.var "x")
    (.cons (.exprS (.num 1)) .nil)
    [.num instr.localGet, .arr [.num 0]]
    [.arr [.arr [.num instr.i32.const, .num 1], .num instr.drop]]
    rfl rfl).1

/-- C6: a variable reference, assignment target, or let target whose name is
absent from the current function's scope makes code generation return the
undeclared-identifier error (so compilation aborts with no byte output);
there is no fallback to any other scope or to index 0, whatever the
right-hand side is. -/
theorem C6_undeclared_identifier_fails (ms : MScope) (fs : FScope) (nm : String)
    (rhs : Expr) (hn : mapGet fs nm = none) :
    toWasmExpr ms fs (.var nm) =
      .error ("Error: undeclared identifier \x27" ++ nm ++ "\x27") ∧
    toWasmExpr ms fs (.assign nm rhs) =
      .error ("Error: undeclared identifier \x27" ++ nm ++ "\x27") ∧
    toWasmStmt ms fs (.letS nm rhs) =
      .error ("Error: undeclared identifier \x27" ++ nm ++ "\x27") ∧
    compile [⟨"main", [], .mk .nil (.var "nope")⟩] =
      .error "Error: undeclared identifier \x27nope\x27" := by
  have hres : resolveSymbol nm fs =
      .error ("Error: undeclared identifier \x27" ++ nm ++ "\x27") := by
    unfold resolveSymbol; rw [hn]
  exact ⟨by simp only [toWasmExpr, hres, error_bind],
         by simp only [toWasmExpr, hres, error_bind],
         by simp only [toWasmStmt, hres, error_bind],
         rfl⟩

theorem C6_undeclared_identifier_fails_witness :
    toWasmExpr [] [] (.var "x") = .error "Error: undeclared identifier \x27x\x27" ∧
    toWasmExpr [] [] (.assign "x" (.num 0)) =
      .error "Error: undeclared identifier \x27x\x27" ∧
    toWasmStmt [] [] (.letS "x" (.num 0)) =
      .error "Error: undeclared identifier \x27x\x27" :=
  ⟨(C6_undeclared_identifier_fails [] [] "x" (.num 0) rfl).1,
   (C6_undeclared_identifier_fails [] [] "x" (.num 0) rfl).2.1,
   (C6_undeclared_identifier_fails [] [] "x" (.num 0) rfl).2.2.1⟩

/-- C8 counterexample: negative inputs are NOT rejected by the unsigned
encoder — `u32(-1)` passes the `v <= 127` guard and emits `-1` (and the
signed encoder likewise passes every negative value). -/
theorem C8_counterexample : u32 (-1) = .ok [.num (-1)] ∧ i32 (-1) = .ok [.num (-1)] :=
  ⟨rfl, rfl⟩

/-- C8 (amended): `u32 v` returns the single byte `[v]` whenever `v ≤ 127`
(negative inputs included — they are emitted as-is, not rejected) and raises
an error exactly when `v > 127`; `i32 v` returns `[v]` whenever `v ≤ 63` and
raises an error exactly when `v > 63`.  Only values above the cutoffs are
rejected. -/
theorem C8_encoder_range_guards (v : Int) :
    (v ≤ 127 → u32 v = .ok [.num v]) ∧
    (127 < v → u32 v = .error "Not Implemented") ∧
    (v ≤ 63 → i32 v = .ok [.num v]) ∧
    (63 < v → i32 v = .error "Not Implemented") :=
  ⟨fun h => u32_ok v h, fun h => u32_error v h,
   fun h => i32_ok v h, fun h => i32_error v h⟩

theorem C8_encoder_range_guards_witness :
    u32 100 = .ok [.num 100] ∧ u32 200 = .error "Not Implemented" ∧
    i32 63 = .ok [.num 63] ∧ i32 64 = .error "Not Implemented" :=
  ⟨(C8_encoder_range_guards 100).1 (by norm_num),
   (C8_encoder_range_guards 200).2.1 (by norm_num),
   (C8_encoder_range_guards 63).2.2.1 (by norm_num),
   (C8_encoder_range_guards 64).2.2.2 (by norm_num)⟩

theorem bind_ok_inv {α β : Type} {x : Except String α} {f : α → Except String β} {b : β}
    (h : (x >>= f) = .ok b) : ∃ a, x = .ok a ∧ f a = .ok b := by
  cases x with
  | error e => exact absurd h (by simp [error_bind])
  | ok a => exact ⟨a, rfl, h⟩

theorem mapE_cons_inv {α β : Type} {f : α → Except String β} {a : α} {rest : List α}
    {bs : List β} (h : mapE f (a :: rest) = .ok bs) :
    ∃ b rbs, f a = .ok b ∧ mapE f rest = .ok rbs ∧ bs = b :: rbs := by
  simp only [mapE] at h
  obtain ⟨b, hb, h2⟩ := bind_ok_inv h
  obtain ⟨rbs, hrbs, h3⟩ := bind_ok_inv h2
  rw [pure_eq_ok] at h3
  exact ⟨b, rbs, hb, hrbs, (Except.ok.inj h3).symm⟩

/-- If every operand and every operator of a chain tail generates
successfully, the tail's items are exactly operand-fragment/opcode pairs in
source order. -/
theorem toWasmChain_spec (ms : MScope) (fs : FScope) :
    ∀ (ps : List (String × Expr)) (obs : List Bytes) (ocs : List Int),
      mapE (fun p => toWasmExpr ms fs p.2) ps = .ok obs →
      mapE (fun p => binaryOp p.1) ps = .ok ocs →
      toWasmChain ms fs (chainOfList ps) = .ok (chainItems obs ocs) := by
  intro ps
  induction ps with
  | nil =>
    intro obs ocs h1 h2
    simp only [mapE] at h1 h2
    rw [← Except.ok.inj h1, ← Except.ok.inj h2]
    rfl
  | cons p rest ih =>
    intro obs ocs h1 h2
    obtain ⟨op, e⟩ := p
    obtain ⟨ob, obs', hob, hobs', hbs⟩ := mapE_cons_inv h1
    obtain ⟨oc, ocs', hoc, hocs', hcs⟩ := mapE_cons_inv h2
    subst hbs hcs
    simp only [chainOfList, toWasmChain, hob, hoc, ih obs' ocs' hobs' hocs',
      ok_bind, pure_eq_ok, chainItems]

/-- Flattening the chain items interleaves each operand's bytes with its
single opcode, in source order. -/
theorem flatten_chainItems :
    ∀ (obs : List Bytes) (ocs : List Int),
      flatten (chainItems obs ocs) =
        (obs.zip ocs).flatMap (fun p => flatten p.1 ++ [p.2]) := by
  intro obs
  induction obs with
  | nil => intro ocs; cases ocs <;> rfl
  | cons ob obs' ih =>
    intro ocs
    cases ocs with
    | nil => rfl
    | cons oc ocs' =>
      simp only [chainItems, flatten, flattenItem, List.zip_cons_cons, List.flatMap_cons, ih]
      simp

/-- A fold that appends per-element suffixes is the flatMap appended to its
initial accumulator. -/
theorem foldl_append_flatMap {α : Type} (g : α → List Int) :
    ∀ (l : List α) (acc : List Int),
      l.foldl (fun a p => a ++ g p) acc = acc ++ l.flatMap g := by
  intro l
  induction l with
  | nil => intro acc; simp
  | cons p rest ih => intro acc; simp [ih, List.append_assoc]

/-- C7: a binary chain compiles to the left-associative fold — the leftmost
operand's code first, then for each (operator, operand) pair in source order
the operand's code followed by that operator's single fixed opcode.  In
particular `a - b - c` flattens to `code(a) code(b) sub code(c) sub`, the
byte stream of `(a - b) - c`, and `and`/`or` are single non-short-circuiting
opcodes whose operands are both always present in the chain. -/
theorem C7_binary_left_fold (ms : MScope) (fs : FScope) (first : Expr)
    (ps : List (String × Expr)) (fb : Bytes) (obs : List Bytes) (ocs : List Int)
    (hf : toWasmExpr ms fs first = .ok fb)
    (hobs : mapE (fun p => toWasmExpr ms fs p.2) ps = .ok obs)
    (hocs : mapE (fun p => binaryOp p.1) ps = .ok ocs) :
    toWasmExpr ms fs (.binary first (chainOfList ps)) =
      .ok (.arr fb :: chainItems obs ocs) ∧
    flatten (.arr fb :: chainItems obs ocs) =
      (obs.zip ocs).foldl (fun acc p => acc ++ (flatten p.1 ++ [p.2])) (flatten fb) ∧
    binaryOp "and" = .ok instr.i32.and ∧
    binaryOp "or" = .ok instr.i32.or := by
  refine ⟨?_, ?_, rfl, rfl⟩
  · simp only [toWasmExpr, hf, toWasmChain_spec ms fs ps obs ocs hobs hocs,
      ok_bind, pure_eq_ok]
  · rw [foldl_append_flatMap, ← flatten_chainItems]
    rfl

theorem C7_binary_left_fold_witness :
    toWasmExpr []
        [("a", ⟨"a", 0, "param"⟩), ("b", ⟨"b", 1, "param"⟩), ("c", ⟨"c", 2, "param"⟩)]
        (.binary (.var "a") (chainOfList [("-", .var "b"), ("-", .var "c")])) =
      .ok (.arr [.num instr.localGet, .arr [.num 0]] ::
        chainItems [[.num instr.localGet, .arr [.num 1]],
                    [.num instr.localGet, .arr [.num 2]]]
          [instr.i32.sub, instr.i32.sub]) ∧
    flatten (.arr [.num instr.localGet, .arr [.num 0]] ::
        chainItems [[.num instr.localGet, .arr [.num 1]],
                    [.num instr.localGet, .arr [.num 2]]]
          [instr.i32.sub, instr.i32.sub]) =
      [0x20, 0, 0x20, 1, 0x6b, 0x20, 2, 0x6b] := by
  have h := C7_binary_left_fold []
    [("a", ⟨"a", 0, "param"⟩), ("b", ⟨"b", 1, "param"⟩), ("c", ⟨"c", 2, "param"⟩)]
    (.var "a") [("-", .var "b"), ("-", .var "c")]
    [.num instr.localGet, .arr [.num 0]]
    [[.num instr.localGet, .arr [.num 1]], [.num instr.localGet, .arr [.num 2]]]
    [instr.i32.sub, instr.i32.sub] rfl rfl rfl
  exact ⟨h.1, rfl⟩

/-! ## Redeclaration (C10) -/

/-- `Map.set` on a present key replaces the binding in place: the map splits
as `pre ++ (k, old) :: post` with `k` not among `pre`'s keys, and `set`
yields `pre ++ (k, new) :: post`. -/
theorem mapSet_replace {α : Type} (m : List (String × α)) (k : String) (v w : α)
    (hnd : (keys m).Nodup) (hget : mapGet m k = some w) :
    ∃ pre post, m = pre ++ (k, w) :: post ∧ k ∉ keys pre ∧
      mapSet m k v = pre ++ (k, v) :: post := by
  induction m with
  | nil => exact absurd hget (by simp [mapGet])
  | cons p rest ih =>
    obtain ⟨k', v'⟩ := p
    by_cases hk : k' = k
    · subst hk
      rw [mapGet, if_pos rfl] at hget
      refine ⟨[], rest, ?_, by simp [keys], ?_⟩
      · simp [Option.some.inj hget]
      · simp [mapSet]
    · rw [mapGet, if_neg hk] at hget
      have hnd' : (keys rest).Nodup := (List.nodup_cons.mp (by simpa [keys_cons] using hnd)).2
      obtain ⟨pre, post, hm, hpre, hset⟩ := ih hnd' hget
      refine ⟨(k', v') :: pre, post, by simp [hm], ?_, ?_⟩
      · rw [keys_cons]
        simp only [List.mem_cons, not_or]
        exact ⟨Ne.symm hk, hpre⟩
      · simp [mapSet, hk, hset]

/-- C10: when a let statement redeclares a name already in the function
scope (a scope with duplicate-free keys and sequential indices `0..n-1`),
the builder's `LetStatement` handler replaces the map entry but gives the new
symbol index `scope.size = n`, which still counts the replaced entry: the
size does not grow, the new index differs from the replaced one, the assigned
indices are no longer the contiguous range from 0 (the old index is missing
and `n` is present), and the number of `"local"` entries — the run-length
locals count `defineFunctionDecls` computes — is strictly below the highest
assigned index plus one. -/
theorem C10_redeclaration_skips_index (sc : FScope) (x : String) (s : SymbolInfo)
    (e : Expr)
    (hkeys : (keys sc).Nodup)
    (hidx : sc.map (fun en => en.2.idx) = List.range sc.length)
    (hget : mapGet sc x = some s) :
    (stStmt sc (.letS x e)).length = sc.length ∧
    mapGet (stStmt sc (.letS x e)) x = some ⟨x, sc.length, "local"⟩ ∧
    s.idx ≠ sc.length ∧
    s.idx ∉ (stStmt sc (.letS x e)).map (fun en => en.2.idx) ∧
    (stStmt sc (.letS x e)).map (fun en => en.2.idx) ≠
      List.range (stStmt sc (.letS x e)).length ∧
    varsCountOf ((stStmt sc (.letS x e)).map Prod.snd) < sc.length + 1 ∧
    (∀ i ∈ (stStmt sc (.letS x e)).map (fun en => en.2.idx), i ≤ sc.length) := by
  obtain ⟨pre, post, hm, hpre, hset⟩ :=
    mapSet_replace sc x (⟨x, sc.length, "local"⟩ : SymbolInfo) s hkeys hget
  have hstmt : stStmt sc (.letS x e) = pre ++ (x, ⟨x, sc.length, "local"⟩) :: post := by
    rw [stStmt]; exact hset
  have hn : sc.length = pre.length + (post.length + 1) := by
    rw [hm]; simp
  -- split the sequential-index hypothesis at the replaced entry
  have hsplit : pre.map (fun en => en.2.idx) ++ s.idx :: post.map (fun en => en.2.idx) =
      List.range sc.length := by
    rw [hn]
    have := hidx
    rw [hm] at this
    simpa using this
  have hrange : List.range sc.length =
      List.range' 0 pre.length ++ List.range' pre.length (post.length + 1) := by
    rw [List.range_eq_range']
    have hap := List.range'_append_1 0 pre.length (post.length + 1)
    rw [Nat.zero_add] at hap
    rw [hap]
    congr 1
    omega
  have hinj :
      pre.map (fun en => en.2.idx) = List.range' 0 pre.length ∧
      s.idx :: post.map (fun en => en.2.idx) =
        List.range' pre.length (post.length + 1) := by
    apply List.append_inj
    · rw [hsplit, hrange]
    · simp
  have hmid : s.idx :: post.map (fun en => en.2.idx) =
      pre.length :: List.range' (pre.length + 1) post.length := by
    rw [hinj.2, List.range'_succ]
  have hsidx : s.idx = pre.length := (List.cons.inj hmid).1
  have hpost : post.map (fun en => en.2.idx) = List.range' (pre.length + 1) post.length :=
    (List.cons.inj hmid).2
  have hpremap : pre.map (fun en => en.2.idx) = List.range' 0 pre.length := hinj.1
  have hlen : (stStmt sc (.letS x e)).length = sc.length := by
    rw [hstmt, hn]; simp
  have hmapidx : (stStmt sc (.letS x e)).map (fun en => en.2.idx) =
      pre.map (fun en => en.2.idx) ++ sc.length :: post.map (fun en => en.2.idx) := by
    rw [hstmt]; simp
  refine ⟨hlen, ?_, ?_, ?_, ?_, ?_, ?_⟩
  · rw [hstmt, mapGet_append_right _ _ _ hpre]
    simp [mapGet]
  · rw [hsidx]; omega
  · rw [hmapidx, hsidx, hpremap, hpost]
    intro hmem
    rcases List.mem_append.mp hmem with hl | hr
    · obtain ⟨i, hi, he⟩ := List.mem_range'.mp hl
      omega
    · rcases List.mem_cons.mp hr with he | hr'
      · omega
      · obtain ⟨i, hi, he⟩ := List.mem_range'.mp hr'
        omega
  · intro heq
    have hnmem : sc.length ∈ (stStmt sc (.letS x e)).map (fun en => en.2.idx) := by
      rw [hmapidx]
      exact List.mem_append_right _ (List.mem_cons_self _ _)
    rw [heq, hlen] at hnmem
    exact absurd (List.mem_range.mp hnmem) (lt_irrefl _)
  · have hle : varsCountOf ((stStmt sc (.letS x e)).map Prod.snd) ≤ sc.length := by
      calc varsCountOf ((stStmt sc (.letS x e)).map Prod.snd)
          ≤ ((stStmt sc (.letS x e)).map Prod.snd).length :=
            List.length_filter_le _ _
        _ = sc.length := by rw [List.length_map, hlen]
    omega
  · intro i hmem
    rw [hmapidx, hpremap, hpost] at hmem
    rcases List.mem_append.mp hmem with hl | hr
    · obtain ⟨k, hk, he⟩ := List.mem_range'.mp hl
      omega
    · rcases List.mem_cons.mp hr with he | hr'
      · omega
      · obtain ⟨k, hk, he⟩ := List.mem_range'.mp hr'
        omega

theorem C10_redeclaration_skips_index_witness :
    (stStmt [("x", ⟨"x", 0, "param"⟩), ("y", ⟨"y", 1, "local"⟩)]
        (.letS "y" (.num 0))).length = 2 ∧
    mapGet (stStmt [("x", ⟨"x", 0, "param"⟩), ("y", ⟨"y", 1, "local"⟩)]
        (.letS "y" (.num 0))) "y" = some ⟨"y", 2, "local"⟩ := by
  have h := C10_redeclaration_skips_index
    [("x", ⟨"x", 0, "param"⟩), ("y", ⟨"y", 1, "local"⟩)] "y" ⟨"y", 1, "local"⟩
    (.num 0) (by decide) (by decide) (by decide)
  exact ⟨h.1, h.2.1⟩

/-! ## Module layout (C4) -/

theorem mapIdxE_cons_inv {α β : Type} {f : Nat → α → Except String β} {i : Nat}
    {a : α} {rest : List α} {bs : List β}
    (h : mapIdxE f i (a :: rest) = .ok bs) :
    ∃ b rbs, f i a = .ok b ∧ mapIdxE f (i + 1) rest = .ok rbs ∧ bs = b :: rbs := by
  simp only [mapIdxE] at h
  obtain ⟨b, hb, h2⟩ := bind_ok_inv h
  obtain ⟨rbs, hrbs, h3⟩ := bind_ok_inv h2
  rw [pure_eq_ok] at h3
  exact ⟨b, rbs, hb, hrbs, (Except.ok.inj h3).symm⟩

/-- An index-carrying effectful map that succeeds produces one output per
input, each obtained from the element and its index. -/
theorem mapIdxE_ok_spec {α β : Type} (f : Nat → α → Except String β) :
    ∀ (l : List α) (i : Nat) (bs : List β), mapIdxE f i l = .ok bs →
      bs.length = l.length ∧
      ∀ (j : Nat) (hj : j < l.length) (hj' : j < bs.length),
        f (i + j) (l.get ⟨j, hj⟩) = .ok (bs.get ⟨j, hj'⟩) := by
  intro l
  induction l with
  | nil =>
    intro i bs h
    simp only [mapIdxE] at h
    have hbs : bs = [] := (Except.ok.inj h).symm
    subst hbs
    exact ⟨rfl, fun j hj => absurd hj (Nat.not_lt_zero j)⟩
  | cons a rest ih =>
    intro i bs h
    obtain ⟨b, rbs, hb, hrbs, hbs⟩ := mapIdxE_cons_inv h
    subst hbs
    obtain ⟨hlen, hget⟩ := ih (i + 1) rbs hrbs
    refine ⟨by simp [hlen], ?_⟩
    intro j hj hj'
    cases j with
    | zero => simpa using hb
    | succ k =>
      have hk : k < rest.length := Nat.lt_of_succ_lt_succ hj
      have hk' : k < rbs.length := Nat.lt_of_succ_lt_succ hj'
      have := hget k hk hk'
      simp only [List.get_cons_succ]
      rw [show i + (k + 1) = (i + 1) + k by omega]
      exact this

/-- A successful `section` is exactly the id byte, the one-byte length field
holding the flattened contents' byte length, and the contents. -/
theorem section_ok_inv (id : Int) (contents b : Bytes)
    (h : section_ id contents = .ok b) :
    b = [.num id, .arr [.num (Int.ofNat (flatten contents).length)], .arr contents] := by
  simp only [section_] at h
  by_cases hle : (Int.ofNat (flatten contents).length) ≤ 127
  · rw [u32_ok _ hle, ok_bind, pure_eq_ok] at h
    exact (Except.ok.inj h).symm
  · rw [u32_error _ (by omega), error_bind] at h
    cases h

theorem vec_section_head (id : Int) (x ts : Bytes)
    (h : (do
        let v ← vec x
        section_ id v) = .ok ts) :
    ts.head? = some (.num id) := by
  obtain ⟨v, hv, h2⟩ := bind_ok_inv h
  rw [section_ok_inv id v ts h2]
  rfl

/-- C4: a successfully assembled module is exactly the 8-byte fixed header —
the 4-byte magic `"\0asm"` and the 4-byte little-endian version 1 — followed
by the four sections in the fixed order type (id 1), function (id 3), export
(id 7), code (id 10); and the export table has exactly one entry per declared
function, unconditionally, carrying the function's source-level name and its
declaration-order index. -/
theorem C4_module_header_sections_exports (fds : List FunctionDecl)
    (types funcs codes exports : List Bytes) (ts fsec es cs : Bytes)
    (h1 : typesOf fds = .ok types)
    (h2 : funcsOf fds = .ok funcs)
    (h3 : codesOf fds = .ok codes)
    (h4 : exportsOf fds = .ok exports)
    (h5 : typesec (types.map Item.arr) = .ok ts)
    (h6 : funcsec (funcs.map Item.arr) = .ok fsec)
    (h7 : exportsec (exports.map Item.arr) = .ok es)
    (h8 : codesec (codes.map Item.arr) = .ok cs) :
    buildModule fds =
      .ok (uint8FromList ([0, 0x61, 0x73, 0x6d] ++ [1, 0, 0, 0] ++
        (flatten ts ++ flatten fsec ++ flatten es ++ flatten cs))) ∧
    ts.head? = some (.num SECTION_ID_TYPE) ∧
    fsec.head? = some (.num SECTION_ID_FUNCTION) ∧
    es.head? = some (.num SECTION_ID_EXPORT) ∧
    cs.head? = some (.num SECTION_ID_CODE) ∧
    exports.length = fds.length ∧
    (∀ (i : Nat) (hi : i < fds.length) (hi' : i < exports.length) (nb fi : Bytes),
      name (fds.get ⟨i, hi⟩).name = .ok nb →
      funcidx (Int.ofNat i) = .ok fi →
      exports.get ⟨i, hi'⟩ = [.arr nb, .arr [.num 0x00, .arr fi]]) := by
  have hspec := mapIdxE_ok_spec
    (fun i f => do
      let d ← exportdesc.func (Int.ofNat i)
      export_ f.name d) fds 0 exports (by simpa [exportsOf] using h4)
  refine ⟨?_, vec_section_head _ _ _ h5, vec_section_head _ _ _ h6,
    vec_section_head _ _ _ h7, vec_section_head _ _ _ h8, hspec.1, ?_⟩
  · simp only [buildModule, h1, h2, h3, h4, h5, h6, h7, h8, ok_bind, pure_eq_ok]
    congr 1
    have hfl : flatten (module [.arr ts, .arr fsec, .arr es, .arr cs]) =
        [0, 0x61, 0x73, 0x6d] ++ ([1, 0, 0, 0] ++
          ((flatten ts ++ (flatten fsec ++ (flatten es ++ (flatten cs ++ [])))) ++ [])) := rfl
    rw [hfl]
    simp [List.append_assoc]
  · intro i hi hi' nb fi hname hfi
    have hstep := hspec.2 i hi hi'
    simp only [Nat.zero_add] at hstep
    simp only [exportdesc.func, hfi, ok_bind, pure_eq_ok] at hstep
    simp only [export_, hname, ok_bind, pure_eq_ok] at hstep
    exact (Except.ok.inj hstep).symm

theorem C4_module_header_sections_exports_witness :
    buildModule [] = .ok [0, 97, 115, 109, 1, 0, 0, 0, 1, 1, 0, 3, 1, 0, 7, 1, 0, 10, 1, 0] := by
  have h := C4_module_header_sections_exports [] [] [] [] []
    [.num 1, .arr [.num 1], .arr [.arr [.num 0]]]
    [.num 3, .arr [.num 1], .arr [.arr [.num 0]]]
    [.num 7, .arr [.num 1], .arr [.arr [.num 0]]]
    [.num 10, .arr [.num 1], .arr [.arr [.num 0]]]
    rfl rfl rfl rfl rfl rfl rfl rfl
  exact h.1.trans rfl
